import Mathlib

/-!
# Hardentools: the cmd.exe DisallowRun toggle (cmd_exe.go)

A shallow embedding of `CmdDisallowRunMembers.Harden` and
`CmdDisallowRunMembers.IsHardened` over a model of the two registry keys the
code touches:

* `HKCU\Software\Microsoft\Windows\CurrentVersion\Policies\Explorer`
  (the grandparent location, holding the `DisallowRun` flag), and
* `...\Policies\Explorer\DisallowRun` (the list location).

Modelling conventions.

* A key's values are an association list in enumeration order (the order in
  which `ReadValueNames` reports them).  A value written under a new name is
  enumerated last; a value written under an existing name keeps its place.
* A registry operation fails only for a reason visible in the store: the key
  or value is absent, the value has another type, or the key to delete still
  has subkeys.  The current user is taken to hold full rights on its own hive.
* A handle on a key is the key's value list, threaded through the operations
  made on the handle and stored back into the registry on every exit path.
* Value names are compared as written; the names the code uses are decimal
  numerals and `DisallowRun`, which no change of letter case affects or, for
  the flag, is taken in the case the code writes.
* Go's `int` is `Nat`: the indices are positive and far below `2^63`.
* The iteration order of a Go map is unspecified, so `Harden` takes it as the
  parameter `mapRange`, about which the theorems assume only that it permutes
  the entries of the map.
* The unbounded scan `for i := 1; true; i++` runs on fuel; `Harden` supplies
  one more unit of fuel than the key has values, which is shown to suffice.
-/

namespace Hardentools

/-! ## Registry model -/

/-- Typed data of a registry value. -/
inductive RegData where
  | sz (s : String)
  | expandSz (s : String)
  | dword (n : Nat)
  | binary (bytes : List Nat)
  deriving DecidableEq, Repr

/-- Errors of the registry primitives. -/
inductive RegErr where
  | ErrNotExist
  | ErrUnexpectedType
  | ErrAccessDenied
  deriving DecidableEq, Repr

/-- Values of one key, by name, in enumeration order. -/
abbrev Values := List (String × RegData)

/-- The list location `Explorer\DisallowRun`. -/
structure Key where
  values : Values
  subkeys : List String
  deriving DecidableEq, Repr

/-- The grandparent location `Policies\Explorer`, with the list location below it. -/
structure ExplorerKey where
  values : Values
  disallowRun : Option Key
  deriving DecidableEq, Repr

/-- The part of the current user's hive that the code reads and writes. -/
structure Registry where
  explorer : Option ExplorerKey
  deriving DecidableEq, Repr

/-- Decimal rendering of an index: `strconv.Itoa`. -/
def itoa (n : Nat) : String := Nat.repr n

/-- The data stored under a name, if any. -/
def lookupValue (vs : Values) (name : String) : Option RegData :=
  List.lookup name vs

/-- Reads a string: `Key.GetStringValue`; succeeds on `REG_SZ` and `REG_EXPAND_SZ` only. -/
def GetStringValue (vs : Values) (name : String) : Except RegErr String :=
  match lookupValue vs name with
  | none => .error .ErrNotExist
  | some (.sz s) => .ok s
  | some (.expandSz s) => .ok s
  | some _ => .error .ErrUnexpectedType

/-- Stores data under a name: replaces in place, or appends a new value. -/
def setValue (vs : Values) (name : String) (d : RegData) : Values :=
  if (lookupValue vs name).isSome then
    vs.map (fun p => if p.1 = name then (p.1, d) else p)
  else
    vs ++ [(name, d)]

/-- Writes a `REG_SZ` value: `Key.SetStringValue`. -/
def SetStringValue (vs : Values) (name : String) (value : String) : Except RegErr Values :=
  .ok (setValue vs name (.sz value))

/-- Writes a `REG_DWORD` value: `Key.SetDWordValue`. -/
def SetDWordValue (vs : Values) (name : String) (value : Nat) : Except RegErr Values :=
  .ok (setValue vs name (.dword value))

/-- Removes a value: `Key.DeleteValue`; fails when no value has that name. -/
def DeleteValue (vs : Values) (name : String) : Except RegErr Values :=
  if (lookupValue vs name).isSome then
    .ok (vs.filter (fun p => p.1 ≠ name))
  else
    .error .ErrNotExist

/-- Names of all values in enumeration order: `Key.ReadValueNames(-1)`. -/
def ReadValueNames (vs : Values) : Except RegErr (List String) :=
  .ok (vs.map Prod.fst)

/-- Opens the grandparent location: `registry.OpenKey` on `...\Policies\Explorer`. -/
def OpenKeyExplorer (r : Registry) : Except RegErr ExplorerKey :=
  match r.explorer with
  | none => .error .ErrNotExist
  | some e => .ok e

/-- Opens the list location: `registry.OpenKey` on `...\Explorer\DisallowRun`. -/
def OpenKeyDisallowRun (r : Registry) : Except RegErr Key :=
  match r.explorer with
  | none => .error .ErrNotExist
  | some e =>
    match e.disallowRun with
    | none => .error .ErrNotExist
    | some k => .ok k

/-- Creates or opens the list location, with its missing ancestors: `registry.CreateKey`. -/
def CreateKeyDisallowRun (r : Registry) : Except RegErr (Registry × Key) :=
  match r.explorer with
  | none => .ok (⟨some ⟨[], some ⟨[], []⟩⟩⟩, ⟨[], []⟩)
  | some e =>
    match e.disallowRun with
    | none => .ok (⟨some ⟨e.values, some ⟨[], []⟩⟩⟩, ⟨[], []⟩)
    | some k => .ok (r, k)

/-- Deletes the list location: `registry.DeleteKey`; a key with subkeys is not deleted. -/
def DeleteKeyDisallowRun (r : Registry) : Except RegErr Registry :=
  match r.explorer with
  | none => .error .ErrNotExist
  | some e =>
    match e.disallowRun with
    | none => .error .ErrNotExist
    | some k =>
      if k.subkeys = [] then .ok ⟨some ⟨e.values, none⟩⟩ else .error .ErrAccessDenied

/-- Stores the values written through a handle on the list location. -/
def storeDisallowRun (r : Registry) (vs : Values) : Registry :=
  match r.explorer with
  | none => r
  | some e =>
    match e.disallowRun with
    | none => r
    | some k => ⟨some ⟨e.values, some ⟨vs, k.subkeys⟩⟩⟩

/-- Stores the values written through a handle on the grandparent location. -/
def storeExplorer (r : Registry) (vs : Values) : Registry :=
  match r.explorer with
  | none => r
  | some e => ⟨some ⟨vs, e.disallowRun⟩⟩

/-! ## The code of `cmd_exe.go` -/

/-- Error returns of `Harden`, one per message of the source. -/
inductive HardenErr where
  | openKeyRestoreFailed
  | couldNotRestore
  | fullyRestoringFailed
  | createKeyFailed
  | couldNotDisable
  deriving DecidableEq, Repr

/-- An assignment `m[key] = val` on a Go map, kept as an association list. -/
def mapAssign (m : List (Nat × String)) (key : Nat) (val : String) : List (Nat × String) :=
  if (List.lookup key m).isSome then
    m.map (fun p => if p.1 = key then (key, val) else p)
  else
    m ++ [(key, val)]

/-- Restore, first loop (lines 67-83): from index `i` upwards, delete each
`"cmd.exe"` until the first index that holds no string.  `none` is fuel
exhaustion. -/
def restoreScan : Nat → Nat → Values → Option (Values × Option HardenErr)
  | 0, _, _ => none
  | fuel + 1, i, vs =>
    match GetStringValue vs (itoa i) with
    | .error _ => some (vs, none)
    | .ok value =>
      if value = "cmd.exe" then
        match DeleteValue vs (itoa i) with
        | .error _ => some (vs, some .couldNotRestore)
        | .ok vs1 => restoreScan fuel (i + 1) vs1
      else
        restoreScan fuel (i + 1) vs

/-- Restore, second loop (lines 93-110): for the `i`-th enumerated name, save
its content at `newValues[i+1]` and delete the old value; stop at the first
name that holds no string. -/
def renumberRead :
    List String → Nat → Values → List (Nat × String) →
      Values × List (Nat × String) × Option HardenErr
  | [], _, vs, newValues => (vs, newValues, none)
  | value :: rest, i, vs, newValues =>
    match GetStringValue vs value with
    | .error _ => (vs, newValues, none)
    | .ok content =>
      match DeleteValue vs value with
      | .error _ => (vs, mapAssign newValues (i + 1) content, some .fullyRestoringFailed)
      | .ok vs1 => renumberRead rest (i + 1) vs1 (mapAssign newValues (i + 1) content)

/-- Restore, third loop (lines 112-118): write every saved entry under its new index. -/
def renumberWrite : List (Nat × String) → Values → Values × Option HardenErr
  | [], vs => (vs, none)
  | (key, val) :: rest, vs =>
    match SetStringValue vs (itoa key) val with
    | .error _ => (vs, some .fullyRestoringFailed)
    | .ok vs1 => renumberWrite rest vs1

/-- Restore, cleanup (lines 125-145): with no value left, delete the list
location and the `DisallowRun` flag. -/
def restoreCleanup (r : Registry) (leftDisallowRunValues : Nat) : Registry × Option HardenErr :=
  if leftDisallowRunValues = 0 then
    match DeleteKeyDisallowRun r with
    | .error _ => (r, some .fullyRestoringFailed)
    | .ok r1 =>
      match OpenKeyExplorer r1 with
      | .error _ => (r1, some .fullyRestoringFailed)
      | .ok keyExplorer =>
        match DeleteValue keyExplorer.values "DisallowRun" with
        | .error _ => (r1, some .fullyRestoringFailed)
        | .ok vs => (storeExplorer r1 vs, none)
  else
    (r, none)

/-- Apply, probe loop (lines 158-165): `n` iterations left, next index `i`. -/
def findStartingPoint (vs : Values) : Nat → Nat → Nat → Nat
  | 0, _, startingPoint => startingPoint
  | n + 1, i, _ =>
    match GetStringValue vs (itoa i) with
    | .error _ => i
    | .ok _ => findStartingPoint vs n (i + 1) i

/-- The method `CmdDisallowRunMembers.Harden`: the registry after the call and the
error returned (`none` for `nil`).  The outer `none` is fuel exhaustion of the
restore scan. -/
def Harden (mapRange : List (Nat × String) → List (Nat × String)) (harden : Bool)
    (r : Registry) : Option (Registry × Option HardenErr) :=
  if harden = false then
    match OpenKeyDisallowRun r with
    | .error _ => some (r, some .openKeyRestoreFailed)
    | .ok keyDisallow =>
      match restoreScan (keyDisallow.values.length + 1) 1 keyDisallow.values with
      | none => none
      | some (vs, some err) => some (storeDisallowRun r vs, some err)
      | some (vs, none) =>
        match ReadValueNames vs with
        | .error _ => some (restoreCleanup (storeDisallowRun r vs) 0)
        | .ok values =>
          match renumberRead values 0 vs [] with
          | (vs1, _, some err) => some (storeDisallowRun r vs1, some err)
          | (vs1, newValues, none) =>
            match renumberWrite (mapRange newValues) vs1 with
            | (vs2, some err) => some (storeDisallowRun r vs2, some err)
            | (vs2, none) => some (restoreCleanup (storeDisallowRun r vs2) newValues.length)
  else
    match CreateKeyDisallowRun r with
    | .error _ => some (r, some .createKeyFailed)
    | .ok (r1, keyDisallow) =>
      let startingPoint := findStartingPoint keyDisallow.values 99 1 1
      match SetStringValue keyDisallow.values (itoa startingPoint) "cmd.exe" with
      | .error _ => some (r1, some .couldNotDisable)
      | .ok vs =>
        let r2 := storeDisallowRun r1 vs
        match OpenKeyExplorer r2 with
        | .error _ => some (r2, some .couldNotDisable)
        | .ok keyExplorer =>
          match SetDWordValue keyExplorer.values "DisallowRun" 1 with
          | .error _ => some (r2, some .couldNotDisable)
          | .ok evs => some (storeExplorer r2 evs, none)

/-- Query loop (lines 205-212): `n` iterations left, next index `i`; a failed
read leaves `value` empty. -/
def isHardenedLoop (vs : Values) : Nat → Nat → Bool → Bool
  | 0, _, cmdExeFound => cmdExeFound
  | n + 1, i, cmdExeFound =>
    let value := match GetStringValue vs (itoa i) with
      | .error _ => ""
      | .ok s => s
    isHardenedLoop vs n (i + 1) (if value = "cmd.exe" then true else cmdExeFound)

/-- The method `CmdDisallowRunMembers.IsHardened`: the registry after the call and
the answer. -/
def IsHardened (r : Registry) : Registry × Bool :=
  match OpenKeyDisallowRun r with
  | .error _ => (r, false)
  | .ok keyDisallow =>
    if isHardenedLoop keyDisallow.values 99 1 false then (r, true) else (r, false)

/-! ## Vocabulary of the claims -/

/-- The list location, if present. -/
def listKey (r : Registry) : Option Key :=
  match r.explorer with
  | none => none
  | some e => e.disallowRun

/-- The entries under the list location; none when the location is absent. -/
def listEntries (r : Registry) : Values :=
  match listKey r with
  | none => []
  | some k => k.values

/-- The `DisallowRun` flag on the grandparent location, if present. -/
def flag (r : Registry) : Option RegData :=
  match r.explorer with
  | none => none
  | some e => lookupValue e.values "DisallowRun"

/-- The names `"1"`, ..., `"k"`. -/
def indexNames (k : Nat) : List String :=
  (List.range' 1 k).map itoa

/-- The string held by a value, if it is of a string type. -/
def RegData.str? : RegData → Option String
  | .sz s => some s
  | .expandSz s => some s
  | _ => none

/-- Whether a name holds a string entry, as `GetStringValue` sees it. -/
def holdsString (vs : Values) (name : String) : Bool :=
  match GetStringValue vs name with
  | .ok _ => true
  | .error _ => false

/-- Number of entries whose string value is `"cmd.exe"`. -/
def cmdCount (vs : Values) : Nat :=
  (vs.filter (fun p => p.2.str? = some "cmd.exe")).length

/-- The string values of the entries, in enumeration order. -/
def stringValues (vs : Values) : List String :=
  vs.filterMap (fun p => p.2.str?)

/-- The string values other than `"cmd.exe"`, in enumeration order. -/
def survivors (vs : Values) : List String :=
  (stringValues vs).filter (fun s => s ≠ "cmd.exe")

/-- The string values held at the indices 1..n, in ascending index order. -/
def valuesByIndex (vs : Values) (n : Nat) : List String :=
  (List.range' 1 n).filterMap (fun i => (lookupValue vs (itoa i)).bind RegData.str?)

/-- Go map iteration on the identity order, used for concrete runs. -/
def inOrder (m : List (Nat × String)) : List (Nat × String) := m

/-! ## Concrete stores -/

/-- Values of the grandparent location with the flag set. -/
def flagOn : Values := [("DisallowRun", .dword 1)]

/-- The hive without the `Explorer` key. -/
def storeEmpty : Registry := ⟨none⟩

/-- The list 1:"a.exe", 2:"cmd.exe", 3:"b.exe", enumerated in index order. -/
def storeABC : Registry :=
  ⟨some ⟨flagOn, some ⟨[("1", .sz "a.exe"), ("2", .sz "cmd.exe"), ("3", .sz "b.exe")], []⟩⟩⟩

/-- The store `storeABC` after an apply. -/
def storeABCApplied : Registry :=
  ⟨some ⟨flagOn, some ⟨[("1", .sz "a.exe"), ("2", .sz "cmd.exe"), ("3", .sz "b.exe"),
    ("4", .sz "cmd.exe")], []⟩⟩⟩

/-- The store `storeABC` after a restore. -/
def storeABCRestored : Registry :=
  ⟨some ⟨flagOn, some ⟨[("1", .sz "a.exe"), ("2", .sz "b.exe")], []⟩⟩⟩

/-- The names 1..3 with a DWORD under "1", enumerated 2, 1, 3. -/
def storeTyped : Registry :=
  ⟨some ⟨flagOn, some ⟨[("2", .sz "b.exe"), ("1", .dword 5), ("3", .sz "c.exe")], []⟩⟩⟩

/-- The names 1..3 with a DWORD under "2", enumerated in index order. -/
def storeTypedFirst : Registry :=
  ⟨some ⟨flagOn, some ⟨[("1", .sz "cmd.exe"), ("2", .dword 5), ("3", .sz "b.exe")], []⟩⟩⟩

/-- The list 1:"a.exe", 2:"b.exe", enumerated 2, 1. -/
def storeSwapped : Registry :=
  ⟨some ⟨flagOn, some ⟨[("2", .sz "b.exe"), ("1", .sz "a.exe")], []⟩⟩⟩

/-- A list with a gap: index 1 free, 2:"cmd.exe". -/
def storeGap : Registry :=
  ⟨some ⟨flagOn, some ⟨[("2", .sz "cmd.exe")], []⟩⟩⟩

/-- A full list: every index 1..99 holds "a.exe". -/
def storeFull : Registry :=
  ⟨some ⟨flagOn, some ⟨(List.range' 1 99).map (fun i => (itoa i, RegData.sz "a.exe")), []⟩⟩⟩

/-- A full list: every index 1..99 holds "cmd.exe". -/
def storeFullCmd : Registry :=
  ⟨some ⟨flagOn, some ⟨(List.range' 1 99).map (fun i => (itoa i, RegData.sz "cmd.exe")), []⟩⟩⟩

/-! ## Index names -/

/-- Reads a decimal numeral back. -/
def atoiChars (cs : List Char) (start : Nat) : Nat :=
  cs.foldl (fun a c => a * 10 + (c.toNat - 48)) start

theorem digitChar_toNat (m : Nat) (h : m < 10) : (Nat.digitChar m).toNat - 48 = m := by
  interval_cases m <;> rfl

theorem atoiChars_toDigitsCore (fuel : Nat) :
    ∀ (n : Nat) (acc : List Char), n < fuel →
      atoiChars (Nat.toDigitsCore 10 fuel n acc) 0 = atoiChars acc n := by
  induction fuel with
  | zero => intro n acc h; omega
  | succ fuel ih =>
    intro n acc h
    have hd : (Nat.digitChar (n % 10)).toNat - 48 = n % 10 :=
      digitChar_toNat _ (Nat.mod_lt _ (by decide))
    unfold Nat.toDigitsCore
    by_cases hz : n / 10 = 0
    · simp only [hz, if_true]
      have hn : n % 10 = n := Nat.mod_eq_of_lt (by omega)
      rw [hn] at hd
      simp only [atoiChars, List.foldl_cons, Nat.zero_mul, Nat.zero_add, hn, hd]
    · simp only [hz, if_false]
      rw [ih (n / 10) _ (by omega)]
      simp only [atoiChars, List.foldl_cons, hd]
      congr 1
      omega

theorem itoa_injective : Function.Injective itoa := by
  intro a b h
  have h1 : Nat.toDigits 10 a = Nat.toDigits 10 b := by
    have h2 : (Nat.toDigits 10 a).asString.data = (Nat.toDigits 10 b).asString.data :=
      congrArg String.data h
    exact h2
  have ha := atoiChars_toDigitsCore (a + 1) a [] (by omega)
  have hb := atoiChars_toDigitsCore (b + 1) b [] (by omega)
  simp only [Nat.toDigits] at h1
  rw [h1] at ha
  simpa [atoiChars] using ha.symm.trans hb

theorem itoa_inj {a b : Nat} : itoa a = itoa b ↔ a = b :=
  itoa_injective.eq_iff

/-! ## Value lists -/

theorem lookupValue_cons (p : String × RegData) (vs : Values) (n : String) :
    lookupValue (p :: vs) n = if n = p.1 then some p.2 else lookupValue vs n := by
  obtain ⟨k, d⟩ := p
  by_cases h : n = k
  · simp [lookupValue, List.lookup, h]
  · have hb : (n == k) = false := by simpa using h
    simp [lookupValue, List.lookup, h, hb]

@[simp] theorem lookupValue_nil (n : String) : lookupValue [] n = none := rfl

theorem lookupValue_append (vs ws : Values) (n : String) :
    lookupValue (vs ++ ws) n = (lookupValue vs n).orElse (fun _ => lookupValue ws n) := by
  induction vs with
  | nil => simp [lookupValue]
  | cons p vs ih =>
    rw [List.cons_append, lookupValue_cons, lookupValue_cons, ih]
    split <;> simp

theorem lookupValue_isSome_iff (vs : Values) (n : String) :
    (lookupValue vs n).isSome ↔ n ∈ vs.map Prod.fst := by
  induction vs with
  | nil => simp [lookupValue]
  | cons p vs ih =>
    rw [lookupValue_cons]
    by_cases h : n = p.1
    · simp [h]
    · simp [h, ih]

theorem lookupValue_eq_none_iff (vs : Values) (n : String) :
    lookupValue vs n = none ↔ n ∉ vs.map Prod.fst := by
  rw [← lookupValue_isSome_iff]
  cases lookupValue vs n <;> simp

theorem lookupValue_mem (vs : Values) (n : String) (d : RegData)
    (h : lookupValue vs n = some d) : (n, d) ∈ vs := by
  induction vs with
  | nil => simp [lookupValue] at h
  | cons p vs ih =>
    rw [lookupValue_cons] at h
    by_cases hn : n = p.1
    · simp only [hn, if_true, Option.some.injEq] at h
      subst hn
      rw [← h]
      exact List.mem_cons_self _ _
    · simp only [hn, if_false] at h
      exact List.mem_cons_of_mem _ (ih h)

theorem lookupValue_of_mem_nodup (vs : Values) (n : String) (d : RegData)
    (hnd : (vs.map Prod.fst).Nodup) (h : (n, d) ∈ vs) : lookupValue vs n = some d := by
  induction vs with
  | nil => simp at h
  | cons p vs ih =>
    rw [lookupValue_cons]
    rw [List.map_cons, List.nodup_cons] at hnd
    rcases List.mem_cons.mp h with h1 | h1
    · subst h1
      simp
    · have hne : n ≠ p.1 := by
        intro he
        apply hnd.1
        rw [← he]
        exact List.mem_map_of_mem Prod.fst h1
      simp [hne, ih hnd.2 h1]

theorem lookupValue_filter_ne (vs : Values) (n m : String) :
    lookupValue (vs.filter (fun p => p.1 ≠ n)) m = if m = n then none else lookupValue vs m := by
  induction vs with
  | nil => simp [lookupValue]
  | cons p vs ih =>
    by_cases hp : p.1 = n
    · rw [List.filter_cons_of_neg (by simpa using hp), ih, lookupValue_cons]
      by_cases hm : m = n
      · simp [hm]
      · have : m ≠ p.1 := by rw [hp]; exact hm
        simp [hm, this]
    · rw [List.filter_cons_of_pos (by simpa using hp), lookupValue_cons, ih, lookupValue_cons]
      by_cases hm : m = p.1
      · have : m ≠ n := by rw [hm]; exact hp
        simp [hm, this, hp]
      · simp [hm]

theorem lookupValue_filter_not (vs : Values) (n m : String) :
    lookupValue (vs.filter (fun p => !decide (p.1 = n))) m =
      if m = n then none else lookupValue vs m := by
  simpa using lookupValue_filter_ne vs n m

theorem lookupValue_map_set (vs : Values) (n m : String) (d : RegData) :
    lookupValue (vs.map (fun p => if p.1 = n then (p.1, d) else p)) m =
      if m = n then (lookupValue vs n).map (fun _ => d) else lookupValue vs m := by
  induction vs with
  | nil => simp [lookupValue]
  | cons p vs ih =>
    rw [List.map_cons, lookupValue_cons, ih]
    by_cases hp : p.1 = n
    · by_cases hm : m = n
      · simp [hp, hm, lookupValue_cons]
      · have : m ≠ p.1 := by rw [hp]; exact hm
        simp [hp, hm, this, lookupValue_cons]
    · by_cases hm : m = n
      · have : n ≠ p.1 := fun h => hp h.symm
        simp [hp, hm, this, lookupValue_cons]
      · simp [hp, hm, lookupValue_cons]

theorem lookupValue_setValue (vs : Values) (n m : String) (d : RegData) :
    lookupValue (setValue vs n d) m = if m = n then some d else lookupValue vs m := by
  unfold setValue
  by_cases h : (lookupValue vs n).isSome
  · rw [if_pos h, lookupValue_map_set]
    obtain ⟨x, hx⟩ := Option.isSome_iff_exists.mp h
    by_cases hm : m = n <;> simp [hm, hx]
  · rw [if_neg h, lookupValue_append]
    have hn : lookupValue vs n = none := by simpa using h
    by_cases hm : m = n
    · subst hm
      rw [hn]
      simp [lookupValue_cons]
    · cases hl : lookupValue vs m <;> simp [hm, lookupValue_cons]

theorem names_setValue (vs : Values) (n : String) (d : RegData) :
    (setValue vs n d).map Prod.fst =
      if n ∈ vs.map Prod.fst then vs.map Prod.fst else vs.map Prod.fst ++ [n] := by
  unfold setValue
  by_cases h : n ∈ vs.map Prod.fst
  · have h1 : (lookupValue vs n).isSome = true := (lookupValue_isSome_iff vs n).mpr h
    rw [if_pos h, if_pos h1, List.map_map]
    apply List.map_congr_left
    intro p _
    by_cases hp : p.1 = n <;> simp [hp]
  · have h1 : ¬ (lookupValue vs n).isSome = true := fun hc => h ((lookupValue_isSome_iff vs n).mp hc)
    rw [if_neg h, if_neg h1]
    simp

theorem map_set_filter_ne (vs : Values) (n : String) (d : RegData) :
    (vs.map (fun p => if p.1 = n then (p.1, d) else p)).filter (fun p => p.1 ≠ n) =
      vs.filter (fun p => p.1 ≠ n) := by
  induction vs with
  | nil => rfl
  | cons p vs ih =>
    rw [List.map_cons]
    by_cases hp : p.1 = n
    · rw [if_pos hp, List.filter_cons_of_neg (by simp [hp]), List.filter_cons_of_neg (by simpa using hp), ih]
    · rw [if_neg hp, List.filter_cons_of_pos (by simpa using hp),
        List.filter_cons_of_pos (by simpa using hp), ih]

theorem setValue_filter_ne (vs : Values) (n : String) (d : RegData) :
    (setValue vs n d).filter (fun p => p.1 ≠ n) = vs.filter (fun p => p.1 ≠ n) := by
  unfold setValue
  split
  · exact map_set_filter_ne vs n d
  · simp [List.filter_append]

/-! ## Reading strings -/

theorem GetStringValue_ok_iff (vs : Values) (n s : String) :
    GetStringValue vs n = .ok s ↔ (lookupValue vs n).bind RegData.str? = some s := by
  unfold GetStringValue
  cases h : lookupValue vs n with
  | none => simp
  | some d => cases d <;> simp [RegData.str?]

theorem holdsString_iff (vs : Values) (n : String) :
    holdsString vs n = true ↔ ∃ s, GetStringValue vs n = .ok s := by
  unfold holdsString
  cases h : GetStringValue vs n <;> simp

theorem holdsString_false_iff (vs : Values) (n : String) :
    holdsString vs n = false ↔ ∃ e, GetStringValue vs n = .error e := by
  unfold holdsString
  cases h : GetStringValue vs n <;> simp

theorem GetStringValue_setValue_sz (vs : Values) (n s : String) :
    GetStringValue (setValue vs n (.sz s)) n = .ok s := by
  rw [GetStringValue_ok_iff, lookupValue_setValue]
  simp [RegData.str?]

theorem GetStringValue_setValue_ne (vs : Values) (n m : String) (d : RegData) (h : m ≠ n) :
    GetStringValue (setValue vs n d) m = GetStringValue vs m := by
  unfold GetStringValue
  rw [lookupValue_setValue, if_neg h]

theorem GetStringValue_filter_ne (vs : Values) (n m : String) (h : m ≠ n) :
    GetStringValue (vs.filter (fun p => p.1 ≠ n)) m = GetStringValue vs m := by
  unfold GetStringValue
  rw [lookupValue_filter_ne, if_neg h]

/-! ## The probe loop of apply -/

theorem findStartingPoint_range (vs : Values) (n : Nat) :
    ∀ (i sp : Nat), 0 < n →
      i ≤ findStartingPoint vs n i sp ∧ findStartingPoint vs n i sp < i + n := by
  induction n with
  | zero => intro i sp h; omega
  | succ n ih =>
    intro i sp _
    unfold findStartingPoint
    cases hg : GetStringValue vs (itoa i) with
    | error e => simp
    | ok s =>
      simp only
      cases n with
      | zero => simp [findStartingPoint]
      | succ n =>
        have := ih (i + 1) i (by omega)
        omega

theorem findStartingPoint_free (vs : Values) (n : Nat) :
    ∀ (i sp i0 : Nat), i ≤ i0 → i0 < i + n →
      (∀ j, i ≤ j → j < i0 → holdsString vs (itoa j) = true) →
      holdsString vs (itoa i0) = false →
      findStartingPoint vs n i sp = i0 := by
  induction n with
  | zero => intro i sp i0 h1 h2; omega
  | succ n ih =>
    intro i sp i0 h1 h2 hbelow hfree
    unfold findStartingPoint
    cases hg : GetStringValue vs (itoa i) with
    | error e =>
      simp only
      by_contra hne
      have := hbelow i (le_refl i) (by omega)
      simp [holdsString, hg] at this
    | ok s =>
      simp only
      have hne : i ≠ i0 := by
        intro he
        subst he
        simp [holdsString, hg] at hfree
      exact ih (i + 1) i i0 (by omega) (by omega)
        (fun j hj1 hj2 => hbelow j (by omega) hj2) hfree

theorem findStartingPoint_full (vs : Values) (n : Nat) :
    ∀ (i sp : Nat),
      (∀ j, i ≤ j → j < i + (n + 1) → holdsString vs (itoa j) = true) →
      findStartingPoint vs (n + 1) i sp = i + n := by
  induction n with
  | zero =>
    intro i sp hall
    have := hall i (le_refl i) (by omega)
    obtain ⟨s, hs⟩ := (holdsString_iff _ _).mp this
    simp [findStartingPoint, hs]
  | succ n ih =>
    intro i sp hall
    have := hall i (le_refl i) (by omega)
    obtain ⟨s, hs⟩ := (holdsString_iff _ _).mp this
    rw [findStartingPoint, hs]
    simp only
    rw [ih (i + 1) i (fun j hj1 hj2 => hall j (by omega) (by omega))]
    omega

/-! ## The query loop -/

theorem isHardenedLoop_iff (vs : Values) (n : Nat) :
    ∀ (i : Nat) (found : Bool),
      isHardenedLoop vs n i found = true ↔
        found = true ∨ ∃ j, i ≤ j ∧ j < i + n ∧ GetStringValue vs (itoa j) = .ok "cmd.exe" := by
  induction n with
  | zero =>
    intro i found
    simp only [isHardenedLoop]
    constructor
    · intro h
      exact Or.inl h
    · rintro (h | ⟨j, h1, h2, _⟩)
      · exact h
      · omega
  | succ n ih =>
    intro i found
    rw [isHardenedLoop, ih]
    constructor
    · rintro (h | ⟨j, h1, h2, h3⟩)
      · cases hg : GetStringValue vs (itoa i) with
        | error e =>
          simp only [hg] at h
          left
          have hne : ¬ ("" : String) = "cmd.exe" := by decide
          simpa [hne] using h
        | ok s =>
          simp only [hg] at h
          by_cases hs : s = "cmd.exe"
          · right
            exact ⟨i, le_refl i, by omega, by rw [hg, hs]⟩
          · left
            simpa [hs] using h
      · right
        exact ⟨j, by omega, by omega, h3⟩
    · rintro (h | ⟨j, h1, h2, h3⟩)
      · left
        simp [h]
      · by_cases hj : j = i
        · left
          subst hj
          simp [h3]
        · right
          exact ⟨j, by omega, by omega, h3⟩

/-! ## Apply -/

/-- Apply never fails in this model; it writes `"cmd.exe"` at the probed index
and sets the flag. -/
theorem Harden_true_run (ord : List (Nat × String) → List (Nat × String)) (r : Registry) :
    ∃ r1, Harden ord true r = some (r1, none) ∧
      (listKey r1).isSome = true ∧
      listEntries r1 =
        setValue (listEntries r) (itoa (findStartingPoint (listEntries r) 99 1 1))
          (.sz "cmd.exe") ∧
      flag r1 = some (.dword 1) := by
  rcases r with ⟨_ | ⟨ev, _ | k⟩⟩ <;>
    simp [Harden, CreateKeyDisallowRun, SetStringValue, storeDisallowRun, OpenKeyExplorer,
      SetDWordValue, storeExplorer, listKey, listEntries, flag, lookupValue_setValue]

theorem Harden_true_inv (ord : List (Nat × String) → List (Nat × String)) (r r1 : Registry)
    (err : Option HardenErr) (h : Harden ord true r = some (r1, err)) :
    err = none ∧ (listKey r1).isSome = true ∧
      listEntries r1 =
        setValue (listEntries r) (itoa (findStartingPoint (listEntries r) 99 1 1))
          (.sz "cmd.exe") ∧
      flag r1 = some (.dword 1) := by
  obtain ⟨r2, h2, h3⟩ := Harden_true_run ord r
  rw [h2] at h
  simp only [Option.some.injEq, Prod.mk.injEq] at h
  obtain ⟨rfl, rfl⟩ := h
  exact ⟨rfl, h3⟩

theorem IsHardened_iff_entries (r : Registry) :
    (IsHardened r).2 = true ↔
      (listKey r).isSome = true ∧
        ∃ i, 1 ≤ i ∧ i ≤ 99 ∧ GetStringValue (listEntries r) (itoa i) = .ok "cmd.exe" := by
  rcases r with ⟨_ | ⟨ev, _ | k⟩⟩
  · simp [IsHardened, OpenKeyDisallowRun, listKey]
  · simp [IsHardened, OpenKeyDisallowRun, listKey]
  · simp only [IsHardened, OpenKeyDisallowRun, listKey, listEntries, Option.isSome_some, true_and]
    have hl := isHardenedLoop_iff k.values 99 1 false
    by_cases hb : isHardenedLoop k.values 99 1 false = true
    · simp only [hb, if_true, true_iff]
      rcases hl.mp hb with h | ⟨j, h1, h2, h3⟩
      · simp at h
      · exact ⟨j, h1, by omega, h3⟩
    · simp only [hb]
      simp only [Bool.false_eq_true, if_false, false_iff]
      rintro ⟨j, h1, h2, h3⟩
      exact hb (hl.mpr (Or.inr ⟨j, h1, by omega, h3⟩))

theorem IsHardened_fst (r : Registry) : (IsHardened r).1 = r := by
  unfold IsHardened
  split
  · rfl
  · split <;> rfl

/-- C8. `IsHardened` answers true exactly when the list location can be opened
and some index in 1..99 holds the string `"cmd.exe"`, whatever the indices
before it hold; it answers false when the location is absent; and the store
after the call is the store before it. -/
theorem IsHardened_spec (r : Registry) :
    ((IsHardened r).2 = true ↔
        ∃ k, OpenKeyDisallowRun r = .ok k ∧
          ∃ i, 1 ≤ i ∧ i ≤ 99 ∧ GetStringValue k.values (itoa i) = .ok "cmd.exe") ∧
      (listKey r = none → (IsHardened r).2 = false) ∧
      (IsHardened r).1 = r := by
  refine ⟨?_, ?_, IsHardened_fst r⟩
  · rw [IsHardened_iff_entries]
    rcases r with ⟨_ | ⟨ev, _ | k⟩⟩ <;> simp [OpenKeyDisallowRun, listKey, listEntries]
  · intro h
    have := IsHardened_iff_entries r
    rw [h] at this
    simpa using this

/-- C10. After an apply that returns no error, the query answers true. -/
theorem Harden_true_then_IsHardened (ord : List (Nat × String) → List (Nat × String))
    (r r1 : Registry) (h : Harden ord true r = some (r1, none)) :
    (IsHardened r1).2 = true := by
  obtain ⟨_, hk, he, _⟩ := Harden_true_inv ord r r1 none h
  rw [IsHardened_iff_entries]
  refine ⟨hk, findStartingPoint (listEntries r) 99 1 1, ?_, ?_, ?_⟩
  · exact (findStartingPoint_range (listEntries r) 99 1 1 (by decide)).1
  · have := (findStartingPoint_range (listEntries r) 99 1 1 (by decide)).2
    omega
  · rw [he]
    exact GetStringValue_setValue_sz _ _ _

/-- C5. When some index in 1..99 holds no string and `i` is the smallest such
index, an apply that returns no error stores `"cmd.exe"` at `i`, the list
location exists afterwards, the entries under every other name are as before,
and the `DisallowRun` flag is the DWORD 1. -/
theorem Harden_true_smallest_free (ord : List (Nat × String) → List (Nat × String))
    (r r1 : Registry) (i : Nat) (hi1 : 1 ≤ i) (hi99 : i ≤ 99)
    (hfree : holdsString (listEntries r) (itoa i) = false)
    (hmin : ∀ j, 1 ≤ j → j < i → holdsString (listEntries r) (itoa j) = true)
    (h : Harden ord true r = some (r1, none)) :
    lookupValue (listEntries r1) (itoa i) = some (.sz "cmd.exe") ∧
      (listKey r1).isSome = true ∧
      (listEntries r1).filter (fun p => p.1 ≠ itoa i) =
        (listEntries r).filter (fun p => p.1 ≠ itoa i) ∧
      (∀ name, name ≠ itoa i →
        lookupValue (listEntries r1) name = lookupValue (listEntries r) name) ∧
      flag r1 = some (.dword 1) := by
  obtain ⟨_, hk, he, hf⟩ := Harden_true_inv ord r r1 none h
  have hsp : findStartingPoint (listEntries r) 99 1 1 = i :=
    findStartingPoint_free (listEntries r) 99 1 1 i hi1 (by omega) hmin hfree
  rw [hsp] at he
  refine ⟨?_, hk, ?_, ?_, hf⟩
  · rw [he, lookupValue_setValue]
    simp
  · rw [he, setValue_filter_ne]
  · intro name hne
    rw [he, lookupValue_setValue, if_neg hne]

/-! ## Restore: the scan terminates -/

theorem restoreScan_none (fuel : Nat) :
    ∀ (i : Nat) (vs : Values), restoreScan fuel i vs = none →
      ∀ j, i ≤ j → j < i + fuel → (lookupValue vs (itoa j)).isSome = true := by
  induction fuel with
  | zero => intro i vs _ j h1 h2; omega
  | succ fuel ih =>
    intro i vs h j h1 h2
    unfold restoreScan at h
    cases hg : GetStringValue vs (itoa i) with
    | error e => simp [hg] at h
    | ok s =>
      have hi : (lookupValue vs (itoa i)).isSome = true := by
        have := (GetStringValue_ok_iff vs (itoa i) s).mp hg
        cases hl : lookupValue vs (itoa i) <;> simp [hl] at this ⊢
      simp only [hg] at h
      by_cases hj : j = i
      · rw [hj]; exact hi
      · by_cases hs : s = "cmd.exe"
        · simp only [hs, if_true, DeleteValue, hi] at h
          have := ih (i + 1) _ h j (by omega) (by omega)
          rw [lookupValue_filter_ne] at this
          by_cases hji : itoa j = itoa i
          · simp [hji] at this
          · simpa [hji] using this
        · simp only [hs, if_false] at h
          exact ih (i + 1) vs h j (by omega) (by omega)

theorem indexNames_nodup (i n : Nat) : ((List.range' i n).map itoa).Nodup :=
  (List.nodup_range' i n).map itoa_injective

theorem restoreScan_fuel (i : Nat) (vs : Values) :
    restoreScan (vs.length + 1) i vs ≠ none := by
  intro h
  have hsub : (List.range' i (vs.length + 1)).map itoa ⊆ vs.map Prod.fst := by
    intro name hn
    obtain ⟨j, hj, rfl⟩ := List.mem_map.mp hn
    rw [List.mem_range'_1] at hj
    exact (lookupValue_isSome_iff vs (itoa j)).mp (restoreScan_none _ i vs h j hj.1 hj.2)
  have hlen := (List.subperm_of_subset (indexNames_nodup i (vs.length + 1)) hsub).length_le
  simp at hlen

/-! ## Restore: the write loop and the cleanup -/

theorem renumberWrite_eq (ws : List (Nat × String)) :
    ∀ vs : Values, renumberWrite ws vs =
      (ws.foldl (fun acc p => setValue acc (itoa p.1) (.sz p.2)) vs, none) := by
  induction ws with
  | nil => intro vs; rfl
  | cons w ws ih =>
    intro vs
    obtain ⟨key, val⟩ := w
    simp [renumberWrite, SetStringValue, ih]

theorem setValue_ne_nil (vs : Values) (n : String) (d : RegData) : setValue vs n d ≠ [] := by
  intro h
  have := lookupValue_setValue vs n n d
  rw [h] at this
  simp at this

theorem foldl_setValue_ne_nil (ws : List (Nat × String)) :
    ∀ vs : Values, vs ≠ [] →
      ws.foldl (fun acc p => setValue acc (itoa p.1) (.sz p.2)) vs ≠ [] := by
  induction ws with
  | nil => intro vs h; exact h
  | cons w ws ih =>
    intro vs _
    exact ih _ (setValue_ne_nil _ _ _)

theorem foldl_setValue_fresh (ws : List (Nat × String)) :
    ∀ vs : Values, ((vs.map Prod.fst) ++ ws.map (fun p => itoa p.1)).Nodup →
      ws.foldl (fun acc p => setValue acc (itoa p.1) (.sz p.2)) vs =
        vs ++ ws.map (fun p => (itoa p.1, RegData.sz p.2)) := by
  induction ws with
  | nil => intro vs _; simp
  | cons w ws ih =>
    intro vs hnd
    have hfresh : lookupValue vs (itoa w.1) = none := by
      rw [lookupValue_eq_none_iff]
      intro hmem
      have := List.nodup_append.mp hnd
      exact this.2.2 hmem (by simp)
    have hset : setValue vs (itoa w.1) (.sz w.2) = vs ++ [(itoa w.1, .sz w.2)] := by
      simp [setValue, hfresh]
    rw [List.foldl_cons, hset, ih]
    · simp
    · simpa [List.append_assoc] using hnd

theorem restoreCleanup_inv (ev vs2 : Values) (sub : List String) (n : Nat) (r1 : Registry)
    (h : restoreCleanup ⟨some ⟨ev, some ⟨vs2, sub⟩⟩⟩ n = (r1, none)) :
    (n = 0 ∧ sub = [] ∧ (lookupValue ev "DisallowRun").isSome = true ∧
        r1 = ⟨some ⟨ev.filter (fun p => p.1 ≠ "DisallowRun"), none⟩⟩) ∨
      (n ≠ 0 ∧ r1 = ⟨some ⟨ev, some ⟨vs2, sub⟩⟩⟩) := by
  unfold restoreCleanup at h
  by_cases hn : n = 0
  · left
    simp only [hn, if_true, DeleteKeyDisallowRun] at h
    by_cases hs : sub = []
    · simp only [hs, if_true, OpenKeyExplorer, DeleteValue] at h
      by_cases hf : (lookupValue ev "DisallowRun").isSome = true
      · simp only [hf, if_true, storeExplorer, Prod.mk.injEq, and_true] at h
        exact ⟨hn, hs, hf, h.symm⟩
      · simp [hf] at h
    · simp [hs] at h
  · right
    simp only [hn, if_false, Prod.mk.injEq, and_true] at h
    exact ⟨hn, h.symm⟩

theorem Harden_false_inv (ord : List (Nat × String) → List (Nat × String)) (r r1 : Registry)
    (h : Harden ord false r = some (r1, none)) :
    ∃ (ev : Values) (k : Key) (vs vs1 : Values) (nv : List (Nat × String)),
      r = ⟨some ⟨ev, some k⟩⟩ ∧
      restoreScan (k.values.length + 1) 1 k.values = some (vs, none) ∧
      renumberRead (vs.map Prod.fst) 0 vs [] = (vs1, nv, none) ∧
      restoreCleanup
        ⟨some ⟨ev, some ⟨(ord nv).foldl (fun acc p => setValue acc (itoa p.1) (.sz p.2)) vs1,
          k.subkeys⟩⟩⟩ nv.length = (r1, none) := by
  rcases r with ⟨_ | ⟨ev, _ | k⟩⟩
  · simp [Harden, OpenKeyDisallowRun] at h
  · simp [Harden, OpenKeyDisallowRun] at h
  · refine ⟨ev, k, ?_⟩
    simp only [Harden, OpenKeyDisallowRun, if_true, ReadValueNames] at h
    cases hs : restoreScan (k.values.length + 1) 1 k.values with
    | none => simp [hs] at h
    | some res =>
      obtain ⟨vs, e⟩ := res
      cases e with
      | some err => simp [hs] at h
      | none =>
        simp only [hs] at h
        rcases hr : renumberRead (vs.map Prod.fst) 0 vs [] with ⟨vs1, nv, e1⟩
        cases e1 with
        | some err => simp [hr] at h
        | none =>
          simp only [hr, renumberWrite_eq, storeDisallowRun, Option.some.injEq] at h
          exact ⟨vs, vs1, nv, rfl, rfl, hr, h⟩

theorem foldl_setValue_ne_nil_of_ne_nil (ws : List (Nat × String)) (vs : Values) (h : ws ≠ []) :
    ws.foldl (fun acc p => setValue acc (itoa p.1) (.sz p.2)) vs ≠ [] := by
  cases ws with
  | nil => exact absurd rfl h
  | cons w ws => exact foldl_setValue_ne_nil ws _ (setValue_ne_nil _ _ _)

/-- C6. After a restore that returns no error, the list location exists if and
only if an entry remains under it; the `DisallowRun` flag is absent if none
remains and is as before the call if one remains. -/
theorem Harden_false_cleanup (ord : List (Nat × String) → List (Nat × String))
    (hord : ∀ m, (ord m).Perm m) (r r1 : Registry)
    (h : Harden ord false r = some (r1, none)) :
    ((listKey r1).isSome = true ↔ listEntries r1 ≠ []) ∧
      (listEntries r1 = [] → flag r1 = none) ∧
      (listEntries r1 ≠ [] → flag r1 = flag r) := by
  obtain ⟨ev, k, vs, vs1, nv, rfl, _, _, hc⟩ := Harden_false_inv ord r r1 h
  rcases restoreCleanup_inv _ _ _ _ _ hc with ⟨_, _, _, rfl⟩ | ⟨hn, rfl⟩
  · simp [listKey, listEntries, flag, lookupValue_filter_not]
  · have hnv : ord nv ≠ [] := by
      intro he
      have := (hord nv).length_eq
      rw [he] at this
      exact hn this.symm
    have hne := foldl_setValue_ne_nil_of_ne_nil (ord nv) vs1 hnv
    simp [listKey, listEntries, flag, hne]

/-- C7. From a store with the list location absent and the `DisallowRun` flag
absent, an apply followed by a restore both return no error and leave the list
location absent and the flag absent. -/
theorem Harden_round_trip (ord : List (Nat × String) → List (Nat × String))
    (hord : ∀ m, (ord m).Perm m) (r : Registry)
    (hkey : listKey r = none) (hflag : flag r = none) :
    ∃ r1 r2, Harden ord true r = some (r1, none) ∧
      Harden ord false r1 = some (r2, none) ∧
      listKey r2 = none ∧ flag r2 = none := by
  have h1 : itoa 1 = "1" := by decide
  have hnil : ord [] = [] := List.Perm.eq_nil (hord [])
  rcases r with ⟨_ | ⟨ev, _ | k⟩⟩
  · refine ⟨⟨some ⟨[("DisallowRun", .dword 1)], some ⟨[("1", .sz "cmd.exe")], []⟩⟩⟩,
      ⟨some ⟨[], none⟩⟩, ?_, ?_, ?_, ?_⟩
    · simp [Harden, CreateKeyDisallowRun, findStartingPoint, GetStringValue, SetStringValue,
        setValue, storeDisallowRun, OpenKeyExplorer, SetDWordValue, storeExplorer, h1]
    · simp [Harden, OpenKeyDisallowRun, restoreScan, GetStringValue, lookupValue_cons,
        DeleteValue, ReadValueNames, renumberRead, renumberWrite, hnil, restoreCleanup,
        DeleteKeyDisallowRun, storeDisallowRun, OpenKeyExplorer, storeExplorer, h1]
    · rfl
    · rfl
  · refine ⟨⟨some ⟨setValue ev "DisallowRun" (.dword 1), some ⟨[("1", .sz "cmd.exe")], []⟩⟩⟩,
      ⟨some ⟨(setValue ev "DisallowRun" (.dword 1)).filter (fun p => p.1 ≠ "DisallowRun"),
        none⟩⟩, ?_, ?_, ?_, ?_⟩
    · simp [Harden, CreateKeyDisallowRun, findStartingPoint, GetStringValue, SetStringValue,
        setValue, storeDisallowRun, OpenKeyExplorer, SetDWordValue, storeExplorer, h1]
    · simp [Harden, OpenKeyDisallowRun, restoreScan, GetStringValue, lookupValue_cons,
        DeleteValue, ReadValueNames, renumberRead, renumberWrite, hnil, restoreCleanup,
        DeleteKeyDisallowRun, storeDisallowRun, OpenKeyExplorer, storeExplorer, h1,
        lookupValue_setValue]
    · rfl
    · simp [flag, lookupValue_filter_not]
  · simp [listKey] at hkey

/-! ## Restore on a gap-free list of strings -/

theorem holdsString_filter_ne (vs : Values) (n m : String) (h : m ≠ n) :
    holdsString (vs.filter (fun p => p.1 ≠ n)) m = holdsString vs m := by
  unfold holdsString
  rw [GetStringValue_filter_ne vs n m h]

theorem str_of_GetStringValue (vs : Values) (p : String × RegData) (s : String)
    (hnd : (vs.map Prod.fst).Nodup) (hp : p ∈ vs) (hg : GetStringValue vs p.1 = .ok s) :
    p.2.str? = some s := by
  have hl := lookupValue_of_mem_nodup vs p.1 p.2 hnd hp
  have := (GetStringValue_ok_iff vs p.1 s).mp hg
  rw [hl] at this
  simpa using this

theorem restoreScan_contig (n : Nat) :
    ∀ (fuel i : Nat) (vs : Values), n < fuel → (vs.map Prod.fst).Nodup →
      (∀ j, i ≤ j → j < i + n → holdsString vs (itoa j) = true) →
      holdsString vs (itoa (i + n)) = false →
      restoreScan fuel i vs =
        some (vs.filter (fun p =>
          ¬ (p.1 ∈ (List.range' i n).map itoa ∧ p.2.str? = some "cmd.exe")), none) := by
  induction n with
  | zero =>
    intro fuel i vs hf _ _ hend
    obtain ⟨f, rfl⟩ : ∃ f, fuel = f + 1 := ⟨fuel - 1, by omega⟩
    obtain ⟨e, he⟩ := (holdsString_false_iff _ _).mp hend
    simp only [Nat.add_zero] at he
    simp [restoreScan, he]
  | succ n ih =>
    intro fuel i vs hf hnd hall hend
    obtain ⟨f, rfl⟩ : ∃ f, fuel = f + 1 := ⟨fuel - 1, by omega⟩
    obtain ⟨s, hs⟩ := (holdsString_iff _ _).mp (hall i (le_refl i) (by omega))
    have hne : ∀ j, i + 1 ≤ j → itoa j ≠ itoa i := by
      intro j hj he
      have := itoa_injective he
      omega
    have hsome : (lookupValue vs (itoa i)).isSome = true := by
      have := (GetStringValue_ok_iff vs (itoa i) s).mp hs
      cases hl : lookupValue vs (itoa i) <;> simp [hl] at this ⊢
    rw [restoreScan, hs]
    simp only
    by_cases hc : s = "cmd.exe"
    · rw [if_pos hc]
      simp only [DeleteValue, hsome, if_true]
      rw [ih f (i + 1) _ (by omega) (hnd.sublist ((List.filter_sublist _).map _))
        (fun j h1 h2 => by
          rw [holdsString_filter_ne _ _ _ (hne j h1)]
          exact hall j (by omega) (by omega))
        (by
          rw [holdsString_filter_ne _ _ _ (hne _ (by omega))]
          have : i + 1 + n = i + (n + 1) := by omega
          rw [this]
          exact hend)]
      rw [List.filter_filter]
      congr 2
      apply List.filter_congr
      intro p hp
      by_cases hpi : p.1 = itoa i
      · have hstr := str_of_GetStringValue vs p s hnd hp (by rw [hpi]; exact hs)
        simp [hpi, hstr, hc, List.range'_succ]
      · simp [hpi, List.range'_succ]
    · rw [if_neg hc]
      rw [ih f (i + 1) vs (by omega) hnd (fun j h1 h2 => hall j (by omega) (by omega))
        (by
          have : i + 1 + n = i + (n + 1) := by omega
          rw [this]
          exact hend)]
      congr 2
      apply List.filter_congr
      intro p hp
      by_cases hpi : p.1 = itoa i
      · have hstr := str_of_GetStringValue vs p s hnd hp (by rw [hpi]; exact hs)
        have hne2 : itoa i ∉ (List.range' (i + 1) n).map itoa := by
          intro hm
          obtain ⟨j, hj, hji⟩ := List.mem_map.mp hm
          rw [List.mem_range'_1] at hj
          exact hne j hj.1 hji
        simp [hpi, hstr, hc, List.range'_succ]
      · simp [hpi, List.range'_succ]

theorem holdsString_of_mem (vs : Values) (name : String)
    (hstr : ∀ p ∈ vs, p.2.str?.isSome = true) (hmem : name ∈ vs.map Prod.fst) :
    holdsString vs name = true := by
  have hs := (lookupValue_isSome_iff vs name).mpr hmem
  obtain ⟨d, hd⟩ := Option.isSome_iff_exists.mp hs
  have hds := hstr (name, d) (lookupValue_mem vs name d hd)
  obtain ⟨s, hs1⟩ := Option.isSome_iff_exists.mp hds
  rw [holdsString_iff]
  exact ⟨s, (GetStringValue_ok_iff vs name s).mpr (by rw [hd]; simpa using hs1)⟩

theorem holdsString_of_not_mem (vs : Values) (name : String)
    (hmem : name ∉ vs.map Prod.fst) : holdsString vs name = false := by
  have hn := (lookupValue_eq_none_iff vs name).mpr hmem
  simp [holdsString, GetStringValue, hn]

theorem mem_indexNames (n : Nat) (name : String) :
    name ∈ indexNames n ↔ ∃ j, 1 ≤ j ∧ j ≤ n ∧ name = itoa j := by
  unfold indexNames
  rw [List.mem_map]
  constructor
  · rintro ⟨j, hj, rfl⟩
    rw [List.mem_range'_1] at hj
    exact ⟨j, hj.1, by omega, rfl⟩
  · rintro ⟨j, h1, h2, rfl⟩
    exact ⟨j, List.mem_range'_1.mpr ⟨h1, by omega⟩, rfl⟩

theorem restoreScan_list (vs : Values) (n : Nat)
    (hnames : (vs.map Prod.fst).Perm (indexNames n))
    (hstr : ∀ p ∈ vs, p.2.str?.isSome = true) :
    restoreScan (vs.length + 1) 1 vs =
      some (vs.filter (fun p => p.2.str? ≠ some "cmd.exe"), none) := by
  have hlen : vs.length = n := by
    have := hnames.length_eq
    simpa [indexNames] using this
  have hnd : (vs.map Prod.fst).Nodup := hnames.nodup_iff.mpr (indexNames_nodup 1 n)
  rw [restoreScan_contig n (vs.length + 1) 1 vs (by omega) hnd
    (fun j h1 h2 => holdsString_of_mem vs _ hstr
      (hnames.mem_iff.mpr ((mem_indexNames n _).mpr ⟨j, h1, by omega, rfl⟩)))
    (holdsString_of_not_mem vs _ (fun hm => by
      obtain ⟨j, _, h2, h3⟩ := (mem_indexNames n _).mp (hnames.mem_iff.mp hm)
      have := itoa_injective h3
      omega))]
  congr 2
  apply List.filter_congr
  intro p hp
  have hm : p.1 ∈ (List.range' 1 n).map itoa :=
    hnames.mem_iff.mp (List.mem_map_of_mem Prod.fst hp)
  simp [hm]

/-! ## Restore: the read loop on a list of strings -/

theorem mapAssign_fresh (m : List (Nat × String)) (key : Nat) (val : String)
    (h : ∀ q ∈ m, q.1 ≠ key) : mapAssign m key val = m ++ [(key, val)] := by
  have hl : List.lookup key m = none := by
    induction m with
    | nil => rfl
    | cons q m ih =>
      obtain ⟨a, b⟩ := q
      have hne : (key == a) = false := by
        have := h (a, b) (List.mem_cons_self _ _)
        simpa using fun he : key = a => this he.symm
      simp only [List.lookup, hne]
      exact ih (fun q hq => h q (List.mem_cons_of_mem _ hq))
  simp [mapAssign, hl]

theorem filter_ne_of_not_mem (vs : Values) (name : String) (h : name ∉ vs.map Prod.fst) :
    vs.filter (fun p => p.1 ≠ name) = vs := by
  rw [List.filter_eq_self]
  intro p hp
  have : p.1 ≠ name := fun he => h (he ▸ List.mem_map_of_mem Prod.fst hp)
  simpa using this

theorem renumberRead_strings (vs : Values) :
    ∀ (i : Nat) (nv : List (Nat × String)), (vs.map Prod.fst).Nodup →
      (∀ p ∈ vs, p.2.str?.isSome = true) → (∀ q ∈ nv, q.1 ≤ i) →
      renumberRead (vs.map Prod.fst) i vs nv =
        ([], nv ++ List.zip (List.range' (i + 1) vs.length) (stringValues vs), none) := by
  induction vs with
  | nil => intro i nv _ _ _; simp [renumberRead, stringValues]
  | cons p t ih =>
    intro i nv hnd hstr hnv
    rw [List.map_cons, List.nodup_cons] at hnd
    obtain ⟨s, hs⟩ := Option.isSome_iff_exists.mp (hstr p (List.mem_cons_self _ _))
    have hg : GetStringValue (p :: t) p.1 = .ok s := by
      rw [GetStringValue_ok_iff, lookupValue_cons]
      simpa using hs
    have hd : DeleteValue (p :: t) p.1 = .ok t := by
      have h1 : (lookupValue (p :: t) p.1).isSome = true := by
        rw [lookupValue_cons]; simp
      simp only [DeleteValue, h1, if_true]
      rw [List.filter_cons_of_neg (by simp), filter_ne_of_not_mem t p.1 hnd.1]
    rw [List.map_cons, renumberRead, hg]
    simp only [hd]
    rw [mapAssign_fresh nv (i + 1) s (fun q hq he => by have := hnv q hq; omega)]
    rw [ih (i + 1) _ hnd.2 (fun q hq => hstr q (List.mem_cons_of_mem _ hq))
      (fun q hq => by
        rcases List.mem_append.mp hq with h | h
        · have := hnv q h; omega
        · have hq1 : q = (i + 1, s) := by simpa using h
          rw [hq1])]
    have hsv : stringValues (p :: t) = s :: stringValues t := by
      simp [stringValues, List.filterMap_cons, hs]
    rw [hsv, List.length_cons, List.range'_succ]
    simp

theorem stringValues_filter (vs : Values) :
    stringValues (vs.filter (fun p => p.2.str? ≠ some "cmd.exe")) = survivors vs := by
  induction vs with
  | nil => rfl
  | cons p t ih =>
    unfold survivors at ih ⊢
    cases hs : p.2.str? with
    | none =>
      rw [List.filter_cons_of_pos (by simp [hs])]
      simp only [stringValues, List.filterMap_cons, hs] at ih ⊢
      exact ih
    | some s =>
      by_cases hc : s = "cmd.exe"
      · rw [List.filter_cons_of_neg (by simp [hs, hc])]
        simp only [stringValues, List.filterMap_cons, hs] at ih ⊢
        rw [List.filter_cons_of_neg (by simp [hc])]
        exact ih
      · rw [List.filter_cons_of_pos (by simp [hs, hc])]
        simp only [stringValues, List.filterMap_cons, hs] at ih ⊢
        rw [List.filter_cons_of_pos (by simp [hc]), ih]

theorem stringValues_length (vs : Values) (hstr : ∀ p ∈ vs, p.2.str?.isSome = true) :
    (stringValues vs).length = vs.length := by
  induction vs with
  | nil => rfl
  | cons p t ih =>
    obtain ⟨s, hs⟩ := Option.isSome_iff_exists.mp (hstr p (List.mem_cons_self _ _))
    simp only [stringValues, List.filterMap_cons, hs, List.length_cons] at ih ⊢
    rw [ih (fun q hq => hstr q (List.mem_cons_of_mem _ hq))]

/-! ## Restore on a gap-free list of strings: the result -/

theorem zip_range_keys_nodup (ord : List (Nat × String) → List (Nat × String))
    (hord : ∀ m, (ord m).Perm m) (ss : List String) :
    ((ord (List.zip (List.range' 1 ss.length) ss)).map (fun p => itoa p.1)).Nodup := by
  have hp := (hord (List.zip (List.range' 1 ss.length) ss)).map (fun p => itoa p.1)
  rw [hp.nodup_iff]
  have hm : (List.zip (List.range' 1 ss.length) ss).map (fun p => itoa p.1) =
      (List.range' 1 ss.length).map itoa := by
    have h1 : (List.zip (List.range' 1 ss.length) ss).map Prod.fst = List.range' 1 ss.length :=
      List.map_fst_zip _ _ (by simp)
    have h2 : (List.zip (List.range' 1 ss.length) ss).map (fun p => itoa p.1) =
        ((List.zip (List.range' 1 ss.length) ss).map Prod.fst).map itoa := by
      rw [List.map_map]
      rfl
    rw [h2, h1]
  rw [hm]
  exact indexNames_nodup 1 ss.length

theorem Harden_false_list (ord : List (Nat × String) → List (Nat × String))
    (hord : ∀ m, (ord m).Perm m) (r r1 : Registry) (n : Nat)
    (hnames : ((listEntries r).map Prod.fst).Perm (indexNames n))
    (hstr : ∀ p ∈ listEntries r, p.2.str?.isSome = true)
    (h : Harden ord false r = some (r1, none)) :
    listEntries r1 =
        (ord (List.zip (List.range' 1 (survivors (listEntries r)).length)
          (survivors (listEntries r)))).map (fun p => (itoa p.1, RegData.sz p.2)) ∧
      ((listKey r1).isSome = true ↔ survivors (listEntries r) ≠ []) := by
  obtain ⟨ev, k, vs, vs1, nv, rfl, hscan, hread, hc⟩ := Harden_false_inv ord r r1 h
  simp only [listEntries, listKey] at hnames hstr ⊢
  rw [restoreScan_list k.values n hnames hstr] at hscan
  simp only [Option.some.injEq, Prod.mk.injEq, and_true] at hscan
  subst hscan
  have hnd : (k.values.map Prod.fst).Nodup := hnames.nodup_iff.mpr (indexNames_nodup 1 n)
  have hndf : ((k.values.filter (fun p => p.2.str? ≠ some "cmd.exe")).map Prod.fst).Nodup :=
    hnd.sublist ((List.filter_sublist _).map _)
  have hstrf : ∀ p ∈ k.values.filter (fun p => p.2.str? ≠ some "cmd.exe"),
      p.2.str?.isSome = true := fun p hp => hstr p (List.mem_of_mem_filter hp)
  rw [renumberRead_strings _ 0 [] hndf hstrf (by simp)] at hread
  rw [← stringValues_length _ hstrf, stringValues_filter] at hread
  simp only [List.nil_append, Prod.mk.injEq, and_true] at hread
  obtain ⟨rfl, rfl⟩ := hread
  rw [foldl_setValue_fresh _ [] (by simpa using zip_range_keys_nodup ord hord _)] at hc
  simp only [List.nil_append] at hc
  rcases restoreCleanup_inv _ _ _ _ _ hc with ⟨hz, _, _, rfl⟩ | ⟨hn, rfl⟩
  · have hsn : survivors k.values = [] := by
      simpa using hz
    simp only [hsn, List.length_nil, List.range'_zero, List.zip_nil_left,
      (hord []).eq_nil, List.map_nil]
    simp
  · have hsn : survivors k.values ≠ [] := by
      intro he
      apply hn
      simp [he]
    simp [hsn]

theorem names_Harden_false_list (ord : List (Nat × String) → List (Nat × String))
    (hord : ∀ m, (ord m).Perm m) (ss : List String) :
    (((ord (List.zip (List.range' 1 ss.length) ss)).map
      (fun p => (itoa p.1, RegData.sz p.2))).map Prod.fst).Perm (indexNames ss.length) := by
  rw [List.map_map]
  have hp := (hord (List.zip (List.range' 1 ss.length) ss)).map (fun p => itoa p.1)
  have h1 : (List.zip (List.range' 1 ss.length) ss).map Prod.fst = List.range' 1 ss.length :=
    List.map_fst_zip _ _ (by simp)
  have h2 : (List.zip (List.range' 1 ss.length) ss).map (fun p => itoa p.1) =
      ((List.zip (List.range' 1 ss.length) ss).map Prod.fst).map itoa := by
    rw [List.map_map]
    rfl
  rw [h2, h1] at hp
  exact hp

theorem stringValues_eq_valuesByIndex (vs : Values) (n : Nat)
    (hnames : vs.map Prod.fst = indexNames n) :
    stringValues vs = valuesByIndex vs n := by
  have hnd : (vs.map Prod.fst).Nodup := by
    rw [hnames]
    exact indexNames_nodup 1 n
  have h1 : stringValues vs =
      (vs.map Prod.fst).filterMap (fun nm => (lookupValue vs nm).bind RegData.str?) := by
    rw [List.filterMap_map]
    apply List.filterMap_congr
    intro p hp
    simp only [Function.comp]
    rw [lookupValue_of_mem_nodup vs p.1 p.2 hnd hp]
    rfl
  rw [h1, hnames, indexNames, List.filterMap_map]
  rfl

/-! ## Apply on a gap-free list -/

theorem findStartingPoint_passed (vs : Values) (n : Nat) :
    ∀ (i sp j : Nat), 0 < n → i ≤ j → j < findStartingPoint vs n i sp →
      holdsString vs (itoa j) = true := by
  induction n with
  | zero => intro i sp j h; omega
  | succ n ih =>
    intro i sp j _ h1 h2
    unfold findStartingPoint at h2
    cases hg : GetStringValue vs (itoa i) with
    | error e =>
      simp only [hg] at h2
      omega
    | ok s =>
      simp only [hg] at h2
      by_cases hj : j = i
      · rw [hj, holdsString_iff]
        exact ⟨s, hg⟩
      · cases n with
        | zero =>
          simp only [findStartingPoint] at h2
          omega
        | succ n => exact ih (i + 1) i j (by omega) (by omega) h2

theorem findStartingPoint_stop (vs : Values) (n : Nat) :
    ∀ (i sp : Nat), 0 < n → findStartingPoint vs n i sp < i + n - 1 →
      holdsString vs (itoa (findStartingPoint vs n i sp)) = false := by
  induction n with
  | zero => intro i sp h; omega
  | succ n ih =>
    intro i sp _ hlt
    unfold findStartingPoint at hlt ⊢
    cases hg : GetStringValue vs (itoa i) with
    | error e =>
      simp only [holdsString, hg]
    | ok s =>
      simp only [hg] at hlt ⊢
      cases n with
      | zero =>
        simp only [findStartingPoint] at hlt
        omega
      | succ n => exact ih (i + 1) i (by omega) (by omega)

theorem names_Harden_true (vs : Values) (k : Nat)
    (hnames : (vs.map Prod.fst).Perm (indexNames k)) :
    ∃ k1, 0 < k1 ∧
      ((setValue vs (itoa (findStartingPoint vs 99 1 1)) (.sz "cmd.exe")).map Prod.fst).Perm
        (indexNames k1) := by
  have hr := findStartingPoint_range vs 99 1 1 (by decide)
  rw [names_setValue]
  by_cases hm : itoa (findStartingPoint vs 99 1 1) ∈ vs.map Prod.fst
  · rw [if_pos hm]
    refine ⟨k, ?_, hnames⟩
    obtain ⟨j, h1, h2, _⟩ := (mem_indexNames k _).mp (hnames.mem_iff.mp hm)
    omega
  · rw [if_neg hm]
    have hgt : k < findStartingPoint vs 99 1 1 := by
      by_contra hle
      exact hm (hnames.mem_iff.mpr ((mem_indexNames k _).mpr ⟨_, hr.1, by omega, rfl⟩))
    have heq : findStartingPoint vs 99 1 1 = k + 1 := by
      by_contra hne
      have hp := findStartingPoint_passed vs 99 1 1 (k + 1) (by decide) (by omega) (by omega)
      have hn := holdsString_of_not_mem vs (itoa (k + 1)) (fun hmem => by
        obtain ⟨j, _, h2, h3⟩ := (mem_indexNames k _).mp (hnames.mem_iff.mp hmem)
        have := itoa_injective h3
        omega)
      rw [hp] at hn
      exact absurd hn (by decide)
    refine ⟨k + 1, by omega, ?_⟩
    rw [heq]
    have hi : indexNames (k + 1) = indexNames k ++ [itoa (k + 1)] := by
      simp [indexNames, List.range'_1_concat, Nat.add_comm]
    rw [hi]
    exact hnames.append_right _

/-! ## Totality -/

/-- The model of `Harden` always returns: the fuel given to the restore scan suffices. -/
theorem Harden_total (ord : List (Nat × String) → List (Nat × String)) (harden : Bool)
    (r : Registry) : ∃ out, Harden ord harden r = some out := by
  cases harden with
  | true =>
    obtain ⟨r1, h, _⟩ := Harden_true_run ord r
    exact ⟨_, h⟩
  | false =>
    rcases r with ⟨_ | ⟨ev, _ | k⟩⟩
    · simp [Harden, OpenKeyDisallowRun]
    · simp [Harden, OpenKeyDisallowRun]
    · simp only [Harden, OpenKeyDisallowRun, if_true, ReadValueNames]
      cases hs : restoreScan (k.values.length + 1) 1 k.values with
      | none => exact absurd hs (restoreScan_fuel 1 k.values)
      | some res =>
        obtain ⟨vs, e⟩ := res
        cases e with
        | some err => simp
        | none =>
          simp only
          rcases hr : renumberRead (vs.map Prod.fst) 0 vs [] with ⟨vs1, nv, e1⟩
          cases e1 with
          | some err => simp
          | none => simp [renumberWrite_eq]

/-! ## The claims on a gap-free list -/

/-- Contiguity on lists of strings. When the entries under the list location are
named exactly "1".."k" and, for a restore, all hold strings, a call of `Harden`
that returns no error leaves them named exactly "1".."k1" for some `k1`, and the
list location is absent when `k1 = 0`. Every apply is covered; a restore only
where the renumbering loop (lines 93-110) reads each entry successfully. -/
theorem Harden_preserves_contiguity (ord : List (Nat × String) → List (Nat × String))
    (hord : ∀ m, (ord m).Perm m) (harden : Bool) (r r1 : Registry) (k : Nat)
    (hnames : ((listEntries r).map Prod.fst).Perm (indexNames k))
    (hstr : harden = false → ∀ p ∈ listEntries r, p.2.str?.isSome = true)
    (h : Harden ord harden r = some (r1, none)) :
    ∃ k1, ((listEntries r1).map Prod.fst).Perm (indexNames k1) ∧
      (k1 = 0 → listKey r1 = none) := by
  cases harden with
  | true =>
    obtain ⟨_, _, he, _⟩ := Harden_true_inv ord r r1 none h
    obtain ⟨k1, hpos, hp⟩ := names_Harden_true (listEntries r) k hnames
    refine ⟨k1, ?_, fun hz => by omega⟩
    rw [he]
    exact hp
  | false =>
    obtain ⟨he, hk⟩ := Harden_false_list ord hord r r1 k hnames (hstr rfl) h
    refine ⟨(survivors (listEntries r)).length, ?_, ?_⟩
    · rw [he]
      exact names_Harden_false_list ord hord _
    · intro hz
      have hs : survivors (listEntries r) = [] := List.length_eq_zero.mp hz
      cases hl : listKey r1 with
      | none => rfl
      | some k0 =>
        rw [hl] at hk
        exact absurd hs (hk.mp rfl)

/-- C3 (amended). On a list of strings named exactly "1".."n", a restore that
returns no error leaves the entries named exactly "1".."k", index `j+1` holding
the `j`-th string other than "cmd.exe" in the order of enumeration; that order
is the ascending index order when the names are enumerated in index order. -/
theorem Harden_false_renumbers (ord : List (Nat × String) → List (Nat × String))
    (hord : ∀ m, (ord m).Perm m) (r r1 : Registry) (n : Nat)
    (hnames : ((listEntries r).map Prod.fst).Perm (indexNames n))
    (hstr : ∀ p ∈ listEntries r, p.2.str?.isSome = true)
    (h : Harden ord false r = some (r1, none)) :
    ((listEntries r1).map Prod.fst).Perm (indexNames (survivors (listEntries r)).length) ∧
      (∀ j s, (survivors (listEntries r))[j]? = some s →
        lookupValue (listEntries r1) (itoa (j + 1)) = some (.sz s)) ∧
      ((listEntries r).map Prod.fst = indexNames n →
        survivors (listEntries r) =
          (valuesByIndex (listEntries r) n).filter (fun s => s ≠ "cmd.exe")) := by
  obtain ⟨he, _⟩ := Harden_false_list ord hord r r1 n hnames hstr h
  have hp := names_Harden_false_list ord hord (survivors (listEntries r))
  refine ⟨by rw [he]; exact hp, ?_, ?_⟩
  · intro j s hj
    rw [he]
    apply lookupValue_of_mem_nodup _ _ _ (hp.nodup_iff.mpr (indexNames_nodup 1 _))
    refine List.mem_map.mpr ⟨(j + 1, s), ?_, rfl⟩
    apply (hord _).mem_iff.mpr
    apply List.mem_iff_getElem?.mpr
    refine ⟨j, List.getElem?_zip_eq_some.mpr ⟨?_, hj⟩⟩
    have hlt : j < (survivors (listEntries r)).length := by
      by_contra hge
      rw [List.getElem?_eq_none (by omega)] at hj
      exact absurd hj (by simp)
    rw [List.getElem?_range' _ _ hlt]
    simp [Nat.add_comm]
  · intro henum
    unfold survivors
    rw [stringValues_eq_valuesByIndex _ n henum]

/-! ## What holds next to the failing claims -/

/-- On a gap-free list of strings a restore that returns no error leaves no
entry holding "cmd.exe". -/
theorem Harden_false_list_no_cmd (ord : List (Nat × String) → List (Nat × String))
    (hord : ∀ m, (ord m).Perm m) (r r1 : Registry) (n : Nat)
    (hnames : ((listEntries r).map Prod.fst).Perm (indexNames n))
    (hstr : ∀ p ∈ listEntries r, p.2.str?.isSome = true)
    (h : Harden ord false r = some (r1, none)) :
    ∀ p ∈ listEntries r1, p.2.str? ≠ some "cmd.exe" := by
  obtain ⟨he, _⟩ := Harden_false_list ord hord r r1 n hnames hstr h
  intro p hp
  rw [he] at hp
  obtain ⟨q, hq, rfl⟩ := List.mem_map.mp hp
  have hz := (hord _).mem_iff.mp hq
  have hs : q.2 ∈ survivors (listEntries r) := (List.of_mem_zip hz).2
  have hne : q.2 ≠ "cmd.exe" := by
    have := (List.mem_filter.mp hs).2
    simpa using this
  simpa [RegData.str?] using hne

theorem map_set_of_not_mem (vs : Values) (name : String) (d : RegData)
    (h : name ∉ vs.map Prod.fst) :
    vs.map (fun p => if p.1 = name then (p.1, d) else p) = vs := by
  induction vs with
  | nil => rfl
  | cons p t ih =>
    have hp : p.1 ≠ name := fun he => h (by simp [he])
    have ht : name ∉ t.map Prod.fst := fun hm => h (by simp [List.mem_map] at hm ⊢; tauto)
    rw [List.map_cons, if_neg hp, ih ht]

theorem cmdCount_cons (p : String × RegData) (t : Values) :
    cmdCount (p :: t) = (if p.2.str? = some "cmd.exe" then 1 else 0) + cmdCount t := by
  unfold cmdCount
  by_cases hc : p.2.str? = some "cmd.exe"
  · rw [List.filter_cons_of_pos (by simpa using hc), if_pos hc, List.length_cons]
    omega
  · rw [List.filter_cons_of_neg (by simpa using hc), if_neg hc]
    omega

theorem cmdCount_map_set (vs : Values) (name : String) (d : RegData)
    (hnd : (vs.map Prod.fst).Nodup) (hl : lookupValue vs name = some d)
    (hd : d.str? = none) :
    cmdCount (vs.map (fun p => if p.1 = name then (p.1, RegData.sz "cmd.exe") else p)) =
      cmdCount vs + 1 := by
  induction vs with
  | nil => simp at hl
  | cons p t ih =>
    rw [List.map_cons, List.nodup_cons] at hnd
    rw [lookupValue_cons] at hl
    rw [List.map_cons]
    by_cases hp : p.1 = name
    · have hpd : p.2 = d := by
        simpa [hp] using hl
      rw [if_pos hp, map_set_of_not_mem t name _ (hp ▸ hnd.1), cmdCount_cons, cmdCount_cons,
        hpd, hd]
      simp [RegData.str?]
      omega
    · have hn : ¬ name = p.1 := fun he => hp he.symm
      rw [if_neg hn] at hl
      rw [if_neg hp, cmdCount_cons, cmdCount_cons, ih hnd.2 hl]
      omega

theorem cmdCount_setValue_free (vs : Values) (name : String)
    (hnd : (vs.map Prod.fst).Nodup) (hfree : holdsString vs name = false) :
    cmdCount (setValue vs name (.sz "cmd.exe")) = cmdCount vs + 1 := by
  unfold setValue
  cases hl : lookupValue vs name with
  | none =>
    simp [cmdCount, List.filter_append, RegData.str?]
  | some d =>
    have hd : d.str? = none := by
      cases d <;> simp [holdsString, GetStringValue, hl, RegData.str?] at hfree ⊢
    simp only [Option.isSome_some, if_true]
    exact cmdCount_map_set vs name d hnd hl hd

/-- While some index in 1..99 holds no string, an apply on a list without
repeated names adds one entry holding "cmd.exe". -/
theorem Harden_true_adds_entry (ord : List (Nat × String) → List (Nat × String))
    (r r1 : Registry) (i : Nat) (hi1 : 1 ≤ i) (hi99 : i ≤ 99)
    (hnd : ((listEntries r).map Prod.fst).Nodup)
    (hfree : holdsString (listEntries r) (itoa i) = false)
    (h : Harden ord true r = some (r1, none)) :
    cmdCount (listEntries r1) = cmdCount (listEntries r) + 1 := by
  obtain ⟨_, _, he, _⟩ := Harden_true_inv ord r r1 none h
  have hr := findStartingPoint_range (listEntries r) 99 1 1 (by decide)
  have hsp : holdsString (listEntries r) (itoa (findStartingPoint (listEntries r) 99 1 1))
      = false := by
    by_contra hc
    have hc1 : holdsString (listEntries r) (itoa (findStartingPoint (listEntries r) 99 1 1))
        = true := by simpa using hc
    have hall : ∀ j, 1 ≤ j → j < 1 + 99 → holdsString (listEntries r) (itoa j) = true := by
      intro j h1 h2
      by_cases hj : j < findStartingPoint (listEntries r) 99 1 1
      · exact findStartingPoint_passed (listEntries r) 99 1 1 j (by decide) h1 hj
      · by_cases hje : j = findStartingPoint (listEntries r) 99 1 1
        · rw [hje]; exact hc1
        · exfalso
          have := findStartingPoint_stop (listEntries r) 99 1 1 (by decide) (by omega)
          rw [hc1] at this
          exact absurd this (by decide)
    have := hall i hi1 (by omega)
    rw [hfree] at this
    exact absurd this (by decide)
  rw [he]
  exact cmdCount_setValue_free _ _ hnd hsp

/-! ## Concrete runs -/

/-- C1 fails on a list with a non-string entry: the entries of `storeTyped` are
named exactly "1".."3", enumerated "2", "1", "3", the one under "1" a DWORD. The
renumbering loop (lines 93-110) deletes "2", leaves the loop at the failed read of
"1" (lines 95-98) and the write loop (line 113) puts "b.exe" under "1": the
restore returns no error and leaves the names "1" and "3", which are "1".."k" for
no `k`, where line 85 announces a repair of the order of the entries. -/
theorem restore_typed_breaks_contiguity :
    ((listEntries storeTyped).map Prod.fst).Perm (indexNames 3) ∧
      (Harden inOrder false storeTyped).map (fun o => (o.2, (listEntries o.1).map Prod.fst)) =
        some (none, ["1", "3"]) ∧
      ∀ k, ¬ (["1", "3"] : List String).Perm (indexNames k) := by
  refine ⟨by decide, by decide, ?_⟩
  intro k hp
  have hk : k = 2 := by
    have := hp.length_eq
    simpa [indexNames] using this.symm
  subst hk
  have hm : "3" ∈ indexNames 2 := hp.mem_iff.mp (by decide)
  exact absurd hm (by decide)

/-- Contiguity on lists of strings, on the restore of `storeABC`. -/
theorem Harden_preserves_contiguity_witness :
    ((listEntries storeABC).map Prod.fst).Perm (indexNames 3) ∧
      (∀ p ∈ listEntries storeABC, p.2.str?.isSome = true) ∧
      Harden inOrder false storeABC = some (storeABCRestored, none) ∧
      ∃ k1, ((listEntries storeABCRestored).map Prod.fst).Perm (indexNames k1) ∧
        (k1 = 0 → listKey storeABCRestored = none) :=
  ⟨by decide, by decide, by decide,
    Harden_preserves_contiguity inOrder (fun m => List.Perm.refl m) false storeABC
      storeABCRestored 3 (by decide) (fun _ => by decide) (by decide)⟩

/-- C2 fails on a list with a gap: on `storeGap` (index 1 free, 2:"cmd.exe") a
restore returns no error, the entry "cmd.exe" remains, now under "1", and the
query still answers true. -/
theorem restore_gap_keeps_cmd :
    (Harden inOrder false storeGap).map
        (fun o => (o.2, listEntries o.1, (IsHardened o.1).2)) =
      some (none, [("1", .sz "cmd.exe")], true) := by
  decide

/-- C3, as stated, fails.  On `storeSwapped` (1:"a.exe", 2:"b.exe", enumerated
2, 1) a restore returns no error and leaves 1:"b.exe", 2:"a.exe".  On
`storeTypedFirst` (1:"cmd.exe", 2:DWORD, 3:"b.exe") a restore returns no error
and deletes the list location, "b.exe" included. -/
theorem renumbering_counterexample :
    (((listEntries storeSwapped).map Prod.fst).Perm (indexNames 2) ∧
      valuesByIndex (listEntries storeSwapped) 2 = ["a.exe", "b.exe"] ∧
      (Harden inOrder false storeSwapped).map
          (fun o => (o.2, valuesByIndex (listEntries o.1) 2)) =
        some (none, ["b.exe", "a.exe"])) ∧
    (((listEntries storeTypedFirst).map Prod.fst).Perm (indexNames 3) ∧
      (Harden inOrder false storeTypedFirst).map (fun o => (o.2, listKey o.1)) =
        some (none, none)) := by
  decide

/-- Witness of C3 (amended) on `storeABC`: 1:"a.exe", 2:"cmd.exe", 3:"b.exe"
becomes 1:"a.exe", 2:"b.exe". -/
theorem Harden_false_renumbers_witness :
    ((listEntries storeABC).map Prod.fst).Perm (indexNames 3) ∧
      (∀ p ∈ listEntries storeABC, p.2.str?.isSome = true) ∧
      Harden inOrder false storeABC = some (storeABCRestored, none) ∧
      survivors (listEntries storeABC) = ["a.exe", "b.exe"] ∧
      (((listEntries storeABCRestored).map Prod.fst).Perm
          (indexNames (survivors (listEntries storeABC)).length) ∧
        (∀ j s, (survivors (listEntries storeABC))[j]? = some s →
          lookupValue (listEntries storeABCRestored) (itoa (j + 1)) = some (.sz s)) ∧
        ((listEntries storeABC).map Prod.fst = indexNames 3 →
          survivors (listEntries storeABC) =
            (valuesByIndex (listEntries storeABC) 3).filter (fun s => s ≠ "cmd.exe"))) :=
  ⟨by decide, by decide, by decide, by decide,
    Harden_false_renumbers inOrder (fun m => List.Perm.refl m) storeABC storeABCRestored 3
      (by decide) (by decide) (by decide)⟩

set_option maxRecDepth 100000 in
/-- C4 fails on the full list: every index 1..99 of `storeFull` holds the string
"a.exe"; an apply returns no error and overwrites the entry under "99" with
"cmd.exe". -/
theorem apply_full_overwrites :
    (∀ i ∈ List.range' 1 99, holdsString (listEntries storeFull) (itoa i) = true) ∧
      lookupValue (listEntries storeFull) "99" = some (.sz "a.exe") ∧
      (Harden inOrder true storeFull).map
          (fun o => (o.2, lookupValue (listEntries o.1) "99", (listEntries o.1).length)) =
        some (none, some (.sz "cmd.exe"), 99) := by
  decide

/-- Witness of C5 on `storeABC`: the smallest index without a string is 4. -/
theorem Harden_true_smallest_free_witness :
    holdsString (listEntries storeABC) (itoa 4) = false ∧
      (∀ j, 1 ≤ j → j < 4 → holdsString (listEntries storeABC) (itoa j) = true) ∧
      Harden inOrder true storeABC = some (storeABCApplied, none) ∧
      (lookupValue (listEntries storeABCApplied) (itoa 4) = some (.sz "cmd.exe") ∧
        (listKey storeABCApplied).isSome = true ∧
        (listEntries storeABCApplied).filter (fun p => p.1 ≠ itoa 4) =
          (listEntries storeABC).filter (fun p => p.1 ≠ itoa 4) ∧
        (∀ name, name ≠ itoa 4 →
          lookupValue (listEntries storeABCApplied) name =
            lookupValue (listEntries storeABC) name) ∧
        flag storeABCApplied = some (.dword 1)) :=
  have hmin : ∀ j, 1 ≤ j → j < 4 → holdsString (listEntries storeABC) (itoa j) = true := by
    intro j h1 h2
    interval_cases j <;> decide
  ⟨by decide, hmin, by decide,
    Harden_true_smallest_free inOrder storeABC storeABCApplied 4 (by decide) (by decide)
      (by decide) hmin (by decide)⟩

/-- Witness of C6 on the restore of `storeABC`, which leaves two entries. -/
theorem Harden_false_cleanup_witness :
    Harden inOrder false storeABC = some (storeABCRestored, none) ∧
      (((listKey storeABCRestored).isSome = true ↔ listEntries storeABCRestored ≠ []) ∧
        (listEntries storeABCRestored = [] → flag storeABCRestored = none) ∧
        (listEntries storeABCRestored ≠ [] → flag storeABCRestored = flag storeABC)) :=
  ⟨by decide,
    Harden_false_cleanup inOrder (fun m => List.Perm.refl m) storeABC storeABCRestored
      (by decide)⟩

/-- Witness of C7 on the hive without the `Explorer` key. -/
theorem Harden_round_trip_witness :
    listKey storeEmpty = none ∧ flag storeEmpty = none ∧
      ∃ r1 r2, Harden inOrder true storeEmpty = some (r1, none) ∧
        Harden inOrder false r1 = some (r2, none) ∧
        listKey r2 = none ∧ flag r2 = none :=
  ⟨rfl, rfl, Harden_round_trip inOrder (fun m => List.Perm.refl m) storeEmpty rfl rfl⟩

set_option maxRecDepth 100000 in
/-- C9 fails on the full list: `storeFullCmd` is hardened and holds 99 entries
"cmd.exe"; an apply returns no error and the count is still 99. -/
theorem apply_full_no_second_entry :
    (IsHardened storeFullCmd).2 = true ∧
      cmdCount (listEntries storeFullCmd) = 99 ∧
      (Harden inOrder true storeFullCmd).map (fun o => (o.2, cmdCount (listEntries o.1))) =
        some (none, 99) := by
  decide

/-- Witness of C10 on `storeABC`. -/
theorem Harden_true_then_IsHardened_witness :
    Harden inOrder true storeABC = some (storeABCApplied, none) ∧
      (IsHardened storeABCApplied).2 = true :=
  ⟨by decide, Harden_true_then_IsHardened inOrder storeABC storeABCApplied (by decide)⟩

end Hardentools
